import Mathlib

/-!
Verification development for `src/billreader.py` (BillReader).

The heuristic extraction engine of the program is embedded shallowly over
`List Char`.  Texts are ASCII bill texts; Python's `str` operations and the
specific `re` patterns used by the source are translated into executable
Lean functions.  Monetary amounts are represented exactly as decimals
(`Dec`, an integer mantissa with a power-of-ten scale): every numeric
token the source can accept has at most two decimal digits and is bounded
by 100000, a range in which parsing decimal literals into IEEE doubles is
injective and order-preserving, so the float comparisons `amt < 100000`
and `0.01 <= amt` of the source coincide with the exact decimal
comparisons used here.
-/

set_option maxRecDepth 20000

/-- Python's `\s` (ASCII range): space, tab, newline, carriage return,
vertical tab, form feed. -/
def isSpacePy (c : Char) : Bool :=
  c = ' ' || c = '\t' || c = '\n' || c = '\r' || c = '\x0b' || c = '\x0c'

/-- Python's `\w` (ASCII range): letters, digits, underscore. -/
def isWordChar (c : Char) : Bool :=
  c.isAlphanum || c = '_'

/-- ASCII lower-casing of a text, modelling `str.lower()` /
`re.IGNORECASE` on the ASCII patterns the source uses. -/
def lowerL (l : List Char) : List Char :=
  l.map Char.toLower

/-- Match a literal word at the head of the input; on success return the
rest of the input. -/
def matchLit : List Char → List Char → Option (List Char)
  | [], s => some s
  | _ :: _, [] => none
  | c :: cs, d :: ds => if c = d then matchLit cs ds else none

/-- Does `f` hold at some suffix of the input?  This is `re.search`
position scanning: try every start position from left to right. -/
def anyPos (f : List Char → Bool) : List Char → Bool
  | [] => f []
  | c :: rest => f (c :: rest) || anyPos f rest

/-- Match a sequence of literal words separated by `\s+` at the head of
the input (each later word starts with a non-space character, so greedy
whitespace consumption is exact). -/
def phraseAt : List (List Char) → List Char → Bool
  | [], _ => true
  | [w], t => (matchLit w t).isSome
  | w :: ws, t =>
    match matchLit w t with
    | none => false
    | some t' =>
      let k := (t'.takeWhile isSpacePy).length
      decide (1 ≤ k) && phraseAt ws (t'.drop k)

/-- `str.splitlines()` restricted to `\n` separators (the only separator
produced by the PDF text source, which joins pages with `"\n"`):
split on `'\n'`, with no trailing empty piece for a trailing newline. -/
def splitAcc : List Char → List Char → List (List Char)
  | [], acc => [acc.reverse]
  | '\n' :: rest, acc => acc.reverse :: splitAcc rest []
  | c :: rest, acc => splitAcc rest (c :: acc)

/-- Python `text.splitlines()` over `\n`-separated text. -/
def splitlines (l : List Char) : List (List Char) :=
  match l with
  | [] => []
  | _ =>
    if l.getLast? = some '\n' then (splitAcc l []).dropLast else splitAcc l []

/-- Python `str.strip()`: drop whitespace at both ends. -/
def stripL (l : List Char) : List Char :=
  ((l.dropWhile isSpacePy).reverse.dropWhile isSpacePy).reverse

/-- `re.sub(r"\s+", " ", line)`: collapse every maximal whitespace run to
a single space. -/
def collapseAux : List Char → Bool → List Char
  | [], _ => []
  | c :: rest, prevSp =>
    if isSpacePy c then
      (if prevSp then collapseAux rest true else ' ' :: collapseAux rest true)
    else c :: collapseAux rest false

/-- Whitespace collapsing of a whole line. -/
def collapseWs (l : List Char) : List Char :=
  collapseAux l false

/-- `[ln.strip() for ln in text.splitlines() if ln.strip()]` from
`detect_company` (src/billreader.py line 113). -/
def nonBlankLines (text : List Char) : List (List Char) :=
  ((splitlines text).map stripL).filter (fun ln => !ln.isEmpty)

/-- Search for `consolidated\s+edison|con\s*ed` (first known-issuer rule,
src/billreader.py line 117).  For `con\s*ed`, the greedy `\s*` run is
followed by the letter `e`, so only the maximal whitespace run can
succeed. -/
def conEdSearch (lt : List Char) : Bool :=
  anyPos
    (fun t =>
      phraseAt ["consolidated".data, "edison".data] t ||
        (match matchLit "con".data t with
          | some t' => (matchLit "ed".data (t'.dropWhile isSpacePy)).isSome
          | none => false))
    lt

/-- Search for `national\s+grid` (second known-issuer rule, line 118). -/
def nationalGridSearch (lt : List Char) : Bool :=
  anyPos (fun t => phraseAt ["national".data, "grid".data] t) lt

/-- Search for `bank\s+of\s+america|bofa` (third known-issuer rule,
line 119). -/
def bofaSearch (lt : List Char) : Bool :=
  anyPos
    (fun t =>
      phraseAt ["bank".data, "of".data, "america".data] t ||
        (matchLit "bofa".data t).isSome)
    lt

/-- The ordered known-issuer table of `detect_company`
(src/billreader.py lines 116-134): first matching rule wins. -/
def knownIssuer (text : List Char) : Option String :=
  let lt := lowerL text
  if conEdSearch lt then some "ConEdison"
  else if nationalGridSearch lt then some "National Grid"
  else if bofaSearch lt then some "Bank of America"
  else none

/-- `detect_company` (src/billreader.py lines 97-159): known issuer
table, else first non-blank line whitespace-collapsed and truncated to 50
characters, else `"Unknown"`. -/
def detect_company (text : List Char) : String :=
  match knownIssuer text with
  | some name => name
  | none =>
    match nonBlankLines text with
    | first :: _ => ⟨(collapseWs first).take 50⟩
    | [] => "Unknown"

/-!
### Backtracking pattern combinators

A pattern of the `re` module is embedded as a function from the input to
the list of possible (captured value, remaining input) pairs, ordered by
the module's backtracking priority: the head of the list is the parse
`re` commits to.  Greedy pieces list longer consumptions first, lazy
pieces shorter ones, and alternation keeps left-to-right order.
-/

/-- The type of embedded patterns producing a capture of type `α`. -/
def P (α : Type) : Type :=
  List Char → List (α × List Char)

/-- Sequencing of patterns; results keep backtracking order. -/
def pBind {α β : Type} (p : P α) (f : α → P β) : P β :=
  fun s => ((p s).map (fun r => f r.1 r.2)).flatten

/-- The empty pattern, capturing `a`. -/
def pPure {α : Type} (a : α) : P α :=
  fun s => [(a, s)]

/-- A literal (already lower-cased where `re.IGNORECASE` applies). -/
def pLit (w : List Char) : P Unit :=
  fun s =>
    match matchLit w s with
    | some s' => [((), s')]
    | none => []

/-- Alternation `a|b|...`, in the pattern's order. -/
def pAlt {α : Type} (ps : List (P α)) : P α :=
  fun s => (ps.map (fun p => p s)).flatten

/-- Greedy option `(?:...)?`: with the piece first, then without. -/
def pOptU (p : P Unit) : P Unit :=
  fun s => p s ++ [((), s)]

/-- `n, n-1, ..., 0`. -/
def descKs (n : Nat) : List Nat :=
  (List.range (n + 1)).reverse

/-- Greedy character-class star `[...]*`: consume `k` class characters
for `k` from the maximal run length down to `0`. -/
def pStarClass (cl : Char → Bool) : P Unit :=
  fun s => (descKs (s.takeWhile cl).length).map (fun k => ((), s.drop k))

/-- Greedy character-class plus `[...]+`: like `pStarClass` but at least
one character. -/
def pPlusClass (cl : Char → Bool) : P Unit :=
  fun s =>
    ((descKs (s.takeWhile cl).length).filter (fun k => decide (1 ≤ k))).map
      (fun k => ((), s.drop k))

/-- `\s+`. -/
def pSpaces1 : P Unit :=
  pPlusClass isSpacePy

/-- Lazy bounded any-character repetition `.{0,maxN}?`; `.` does not
match a newline. -/
def pLazyDots (maxN : Nat) : P Unit :=
  fun s =>
    (List.range (min maxN (s.takeWhile (fun c => !(c = '\n'))).length + 1)).map
      (fun k => ((), s.drop k))

/-- A single character from an explicit class such as slash-or-dash. -/
def pCharIn (cs : List Char) : P Unit :=
  fun s =>
    match s with
    | c :: rest => if cs.contains c then [((), rest)] else []
    | [] => []

/-- Numeric value of a digit string, as Python `int`. -/
def digitsVal (l : List Char) : Nat :=
  l.foldl (fun a c => a * 10 + (c.toNat - 48)) 0

/-- Greedy `\d{lo,hi}` capturing the matched digits' value. -/
def pDigitsRange (lo hi : Nat) : P Nat :=
  fun s =>
    let run := (s.takeWhile Char.isDigit).length
    ((descKs (min hi run)).filter (fun k => decide (lo ≤ k))).map
      (fun k => (digitsVal (s.take k), s.drop k))

/-- `\d{n}` capturing the matched digits' value. -/
def pDigitsExact (n : Nat) : P Nat :=
  fun s =>
    if n ≤ (s.takeWhile Char.isDigit).length then
      [(digitsVal (s.take n), s.drop n)]
    else []

/-- A single digit `[1-9]` (ASCII 49..57), captured as its value. -/
def pDigit19 : P Nat :=
  fun s =>
    match s with
    | c :: rest =>
      if 49 ≤ c.toNat ∧ c.toNat ≤ 57 then [(c.toNat - 48, rest)] else []
    | [] => []

/-- A single digit `[0-2]` (ASCII 48..50), captured as `10 + value`
(the second digit of a two-digit month `1[0-2]`). -/
def pDigit02 : P Nat :=
  fun s =>
    match s with
    | c :: rest =>
      if 48 ≤ c.toNat ∧ c.toNat ≤ 50 then [(10 + (c.toNat - 48), rest)] else []
    | [] => []

/-- Trailing `\b` after a digit: the next character, if any, is not a
word character.  Consumes nothing. -/
def pEndWord : P Unit :=
  fun s =>
    match s with
    | [] => [((), [])]
    | c :: _ => if isWordChar c then [] else [((), s)]

/-- One month-name alternative `base(?:suffix)?` of the source's month
alternation, captured as the month number `MONTH_NAME_MAP` assigns to
every string this alternative can match (src/billreader.py
lines 162-187). -/
def pMonthLit (base suffix : List Char) (k : Nat) : P Nat :=
  pBind (pLit base) fun _ =>
  pBind (pOptU (pLit suffix)) fun _ =>
  pPure k

/-- The alternative `may`. -/
def pMay : P Nat :=
  pBind (pLit "may".data) fun _ => pPure 5

/-- The alternative `sep(?:t(?:ember)?)?`. -/
def pSep : P Nat :=
  pBind (pLit "sep".data) fun _ =>
  pBind
    (pOptU
      (pBind (pLit "t".data) fun _ =>
       pBind (pOptU (pLit "ember".data)) fun _ =>
       pPure ())) fun _ =>
  pPure 9

/-- The month-name alternation used by the date patterns of
`detect_month_year` (src/billreader.py lines 231-233 etc.), in the
pattern's alternative order. -/
def monthP : P Nat :=
  pAlt
    [pMonthLit "jan".data "uary".data 1,
     pMonthLit "feb".data "ruary".data 2,
     pMonthLit "mar".data "ch".data 3,
     pMonthLit "apr".data "il".data 4,
     pMay,
     pMonthLit "jun".data "e".data 6,
     pMonthLit "jul".data "y".data 7,
     pMonthLit "aug".data "ust".data 8,
     pSep,
     pMonthLit "oct".data "ober".data 10,
     pMonthLit "nov".data "ember".data 11,
     pMonthLit "dec".data "ember".data 12]

/-- `(MONTHS)\s+(\d{1,2}),\s+(\d{4})`: one full date of the named-range
patterns, capturing (month, year). -/
def monthDayYearP : P (Nat × Nat) :=
  pBind monthP fun m =>
  pBind pSpaces1 fun _ =>
  pBind (pDigitsRange 1 2) fun _ =>
  pBind (pLit ",".data) fun _ =>
  pBind pSpaces1 fun _ =>
  pBind (pDigitsExact 4) fun y =>
  pPure (m, y)

/-- `date_range_pattern` (src/billreader.py lines 261-270):
`Month D, YYYY to Month D, YYYY`, capturing the start month/year. -/
def dateRangeP : P (Nat × Nat) :=
  pBind monthDayYearP fun my =>
  pBind pSpaces1 fun _ =>
  pBind (pLit "to".data) fun _ =>
  pBind pSpaces1 fun _ =>
  pBind monthDayYearP fun _ =>
  pPure my

/-- `billing_period_pattern` (src/billreader.py lines 230-239):
`Billing period:` then `\s+` then the same two-date body. -/
def billingPeriodP : P (Nat × Nat) :=
  pBind (pLit "billing period:".data) fun _ =>
  pBind pSpaces1 fun _ =>
  dateRangeP

/-- `(\d{1,2})`, slash-or-dash, `(\d{1,2})`, slash-or-dash, `(\d{4})`: one numeric date, capturing
(month-as-written, year). -/
def numericDateP : P (Nat × Nat) :=
  pBind (pDigitsRange 1 2) fun m =>
  pBind (pCharIn ['/', '-']) fun _ =>
  pBind (pDigitsRange 1 2) fun _ =>
  pBind (pCharIn ['/', '-']) fun _ =>
  pBind (pDigitsExact 4) fun y =>
  pPure (m, y)

/-- `numeric_billing_pattern` (src/billreader.py lines 293-299):
`Billing period[:\s]*` then a numeric date, `.{0,40}?`, and a second
numeric date; captures the start month/year, month used as-is. -/
def numericBillingP : P (Nat × Nat) :=
  pBind (pLit "billing period".data) fun _ =>
  pBind (pStarClass (fun c => c = ':' || isSpacePy c)) fun _ =>
  pBind numericDateP fun my =>
  pBind (pLazyDots 40) fun _ =>
  pBind numericDateP fun _ =>
  pPure my

/-- `month_year_pattern` (src/billreader.py lines 324-330):
`\b(MONTHS)\s+(\d{4})` (the leading `\b` is handled by the search). -/
def monthYearP : P (Nat × Nat) :=
  pBind monthP fun m =>
  pBind pSpaces1 fun _ =>
  pBind (pDigitsExact 4) fun y =>
  pPure (m, y)

/-- The month group `(0?[1-9]|1[0-2])` of `numeric_pattern`, flattened
into backtracking order: `0` then `[1-9]`; `[1-9]`; `1[0-2]`. -/
def numMonthP : P Nat :=
  pAlt
    [pBind (pLit "0".data) fun _ => pDigit19,
     pDigit19,
     pBind (pLit "1".data) fun _ => pDigit02]

/-- `numeric_pattern` (src/billreader.py line 338):
`\b(0?[1-9]|1[0-2])`, slash-or-dash, `(\d{4})\b`. -/
def numericMYP : P (Nat × Nat) :=
  pBind numMonthP fun m =>
  pBind (pCharIn ['/', '-']) fun _ =>
  pBind (pDigitsExact 4) fun y =>
  pBind pEndWord fun _ =>
  pPure (m, y)

/-- `re.search`: try the pattern at every start position from left to
right; at the first position with a parse, commit to the
highest-priority parse. -/
def searchP {α : Type} (p : P α) : List Char → Option α
  | [] => ((p []).head?).map Prod.fst
  | c :: rest =>
    match (p (c :: rest)).head? with
    | some r => some r.1
    | none => searchP p rest

/-- Is a position preceded by `prev` a `\b` boundary for a pattern that
starts with a word character? -/
def boundaryOK : Option Char → Bool
  | none => true
  | some c => !isWordChar c

/-- `re.search` for a pattern with a leading `\b` (all such patterns of
the source start with a word character): like `searchP` but a position
qualifies only when the previous character is absent or non-word. -/
def searchB {α : Type} (p : P α) : Option Char → List Char → Option α
  | prev, [] => if boundaryOK prev then ((p []).head?).map Prod.fst else none
  | prev, c :: rest =>
    if boundaryOK prev then
      match (p (c :: rest)).head? with
      | some r => some r.1
      | none => searchB p (some c) rest
    else searchB p (some c) rest

/-- `detect_month_year` (src/billreader.py lines 210-345): the ordered
cascade of date patterns; `None` when none matches.  The source searches
the original text with `re.IGNORECASE`; here the text is lower-cased
once, which is equivalent for these ASCII patterns. -/
def detect_month_year (text : List Char) : Option (Nat × Nat) :=
  let s := lowerL text
  match searchP billingPeriodP s with
  | some my => some my
  | none =>
    match searchP dateRangeP s with
    | some my => some my
    | none =>
      match searchP numericBillingP s with
      | some my => some my
      | none =>
        match searchB monthYearP none s with
        | some my => some my
        | none => searchB numericMYP none s

/-!
### Amount resolution

`detect_amount` (src/billreader.py lines 359-537) extracts numeric
candidates per line with two patterns — `currency_pattern`
`\$\s*(\d[\d,]*\.\d{2})` and `decimal_pattern` `(\d[\d,]*\.\d{2})` —
and resolves them in two phases.  (`generic_pattern` of line 389 is
defined by the source but never used.)  The deterministic shape of
`\d[\d,]*\.\d{2}` lets `re.finditer` be embedded directly: a match at a
position is a leading digit, a greedy digits-and-commas run backtracked
to the largest extent followed by a dot and two digits.
-/

/-- An exactly-represented decimal number, denoting `num / 10 ^ scale`.
Every token the money patterns accept is a decimal literal with two
fraction digits below 100000; on that range conversion to IEEE doubles
(Python `float`) is injective and monotone, so Python's float
comparisons coincide with the exact comparisons on this type. -/
structure Dec where
  num : Int
  scale : Nat
  deriving DecidableEq, Repr

/-- The rational value a `Dec` denotes. -/
def Dec.toRat (d : Dec) : ℚ :=
  mkRat d.num (10 ^ d.scale)

/-- Exact value comparison (cross-multiplied), the embedding of `<` on
the parsed Python floats. -/
def dLt (a b : Dec) : Bool :=
  decide (a.num * 10 ^ b.scale < b.num * 10 ^ a.scale)

/-- Exact value comparison (cross-multiplied), the embedding of `<=` on
the parsed Python floats. -/
def dLe (a b : Dec) : Bool :=
  decide (a.num * 10 ^ b.scale ≤ b.num * 10 ^ a.scale)

/-- Python's binary `max` on parsed floats: keep the current value on
ties. -/
def maxD (a b : Dec) : Dec :=
  if dLt a b then b else a

/-- The character class `[\d,]` of the money patterns. -/
def decClass (c : Char) : Bool :=
  c.isDigit || c = ','

/-- Does the input start with `\.\d{2}`? -/
def dotdd : List Char → Bool
  | c :: a :: b :: _ => decide (c = '.') && a.isDigit && b.isDigit
  | _ => false

/-- Backtracking of the greedy `[\d,]*` run: the largest `k ≤ n` such
that `\.\d{2}` matches after `k` run characters. -/
def decBack (rest : List Char) : Nat → Option Nat
  | 0 => if dotdd rest then some 0 else none
  | k + 1 => if dotdd (rest.drop (k + 1)) then some (k + 1) else decBack rest k

/-- Length of the match of `\d[\d,]*\.\d{2}` at the head of the input,
if any. -/
def decMatchLen : List Char → Option Nat
  | [] => none
  | c :: rest =>
    if c.isDigit then
      match decBack rest (rest.takeWhile decClass).length with
      | some k => some (1 + k + 3)
      | none => none
    else none

/-- `re.finditer` for `decimal_pattern` over a line: scan left to right,
resuming after each match; produces (start, end) spans. -/
def decIterAux (l : List Char) : Nat → Nat → List (Nat × Nat)
  | 0, _ => []
  | fuel + 1, i =>
    if l.length ≤ i then []
    else
      match decMatchLen (l.drop i) with
      | some len => (i, i + len) :: decIterAux l fuel (i + len)
      | none => decIterAux l fuel (i + 1)

/-- All `decimal_pattern` match spans of a line. -/
def decFinditer (l : List Char) : List (Nat × Nat) :=
  decIterAux l (l.length + 1) 0

/-- A `currency_pattern` match at the head of the input: `$`, a greedy
whitespace run (which cannot backtrack, since the group must then start
with a digit), then a `\d[\d,]*\.\d{2}` group.  Returns (offset of the
group, group length). -/
def curMatchAt : List Char → Option (Nat × Nat)
  | [] => none
  | c :: rest =>
    if c = '$' then
      let w := (rest.takeWhile isSpacePy).length
      match decMatchLen (rest.drop w) with
      | some len => some (1 + w, len)
      | none => none
    else none

/-- `re.finditer` for `currency_pattern` over a line; produces the
(start, end) spans of the captured group. -/
def curIterAux (l : List Char) : Nat → Nat → List (Nat × Nat)
  | 0, _ => []
  | fuel + 1, i =>
    if l.length ≤ i then []
    else
      match curMatchAt (l.drop i) with
      | some (off, len) => (i + off, i + off + len) :: curIterAux l fuel (i + off + len)
      | none => curIterAux l fuel (i + 1)

/-- All `currency_pattern` group spans of a line. -/
def curFinditer (l : List Char) : List (Nat × Nat) :=
  curIterAux l (l.length + 1) 0

/-- The matched token of a span. -/
def sliceTok (l : List Char) (se : Nat × Nat) : List Char :=
  (l.drop se.1).take (se.2 - se.1)

/-- `line[max(0, start-5):min(len(line), end+5)]`: the context window of
the phone-number check (src/billreader.py lines 428-429). -/
def contextOf (l : List Char) (se : Nat × Nat) : List Char :=
  let cs := se.1 - 5
  let ce := min (se.2 + 5) l.length
  (l.drop cs).take (ce - cs)

/-- `re.search(r'\d-\d', context)`: a digit-hyphen-digit subsequence of
consecutive characters. -/
def hasDHD : List Char → Bool
  | a :: b :: c :: rest => (a.isDigit && b = '-' && c.isDigit) || hasDHD (b :: c :: rest)
  | _ => false

/-- Unsigned part of Python `float` parsing on strings drawn from
digits and a dot: `D+ (. D*)? | . D+`; anything else is a
`ValueError`.  (Exponents, infinities and hexadecimal forms cannot
survive the cleaning filter, which keeps only digits, `.` and `-`.)
`I.F` with fraction digits `F` denotes `(I * 10 ^ |F| + F) / 10 ^ |F|`. -/
def parseUnsignedDec (r : List Char) : Option Dec :=
  let ip := r.takeWhile Char.isDigit
  let rest := r.drop ip.length
  match rest with
  | [] => if ip.isEmpty then none else some ⟨(digitsVal ip : Int), 0⟩
  | c :: fr =>
    if c = '.' then
      if fr.all Char.isDigit then
        if ip.isEmpty && fr.isEmpty then none
        else some ⟨((digitsVal ip * 10 ^ fr.length + digitsVal fr : Nat) : Int), fr.length⟩
      else none
    else none

/-- Python `float()` on a cleaned string (digits, `.`, `-` only): an
optional leading minus, then the unsigned form. -/
def parsePyFloat (l : List Char) : Option Dec :=
  if l.head? = some '-' then
    (parseUnsignedDec l.tail).map (fun d => ⟨-d.num, d.scale⟩)
  else parseUnsignedDec l

/-- `clean_amount_str` (src/billreader.py lines 348-356): strip every
character that is not a digit, `.` or `-`, then parse as a float;
`None` on an empty or unparsable result. -/
def clean_amount_str (l : List Char) : Option Dec :=
  let cleaned := l.filter (fun c => c.isDigit || c = '.' || c = '-')
  if cleaned.isEmpty then none else parsePyFloat cleaned

/-- The per-match guard of `currency_pattern` candidates
(src/billreader.py lines 411-413): a parsed value is kept when it is
below 100000; an unparsable token yields nothing. -/
def keepCurrency : Option Dec → List Dec
  | some amt => if dLt amt ⟨100000, 0⟩ then [amt] else []
  | none => []

/-- The per-match guard of `decimal_pattern` candidates
(src/billreader.py lines 432-434): a parsed value is kept when it lies
in [0.01, 100000); an unparsable token yields nothing. -/
def keepDecimal : Option Dec → List Dec
  | some amt => if dLe ⟨1, 2⟩ amt && dLt amt ⟨100000, 0⟩ then [amt] else []
  | none => []

/-- Candidates a line contributes through `currency_pattern`
(src/billreader.py lines 410-413 and 477-480): parsed group values
below 100000. -/
def currencyCandidates (l : List Char) : List Dec :=
  ((curFinditer l).map (fun se =>
    keepCurrency (clean_amount_str (sliceTok l se)))).flatten

/-- Candidates a line contributes through `decimal_pattern`
(src/billreader.py lines 426-434 and 494-501): matches whose context
window has no digit-hyphen-digit are parsed and kept when in
[0.01, 100000). -/
def decimalCandidates (l : List Char) : List Dec :=
  ((decFinditer l).map (fun se =>
    if hasDHD (contextOf l se) then []
    else keepDecimal (clean_amount_str (sliceTok l se)))).flatten

/-- All candidates of one line, currency matches first — the per-line
extraction shared verbatim by the keyword phase and the fallback phase
of `detect_amount`. -/
def lineCandidates (l : List Char) : List Dec :=
  currencyCandidates l ++ decimalCandidates l

/-- `keyword_pattern` (src/billreader.py lines 379-382): does a line
contain one of the five keyword phrases (case-insensitive)? -/
def keywordLine (line : List Char) : Bool :=
  anyPos
    (fun t =>
      phraseAt ["total".data, "amount".data, "due".data] t ||
      phraseAt ["amount".data, "due".data] t ||
      phraseAt ["total".data, "due".data] t ||
      phraseAt ["current".data, "charges".data] t ||
      phraseAt ["amount".data, "due".data, "now".data] t)
    (lowerL line)

/-- Python `max` over a non-empty list (`None` on empty). -/
def listMax : List Dec → Option Dec
  | [] => none
  | x :: xs => some (xs.foldl maxD x)

/-- The line at an index (indices come from `enumerate`, so always in
bounds where used). -/
def lineAt (lines : List (List Char)) (i : Nat) : List Char :=
  lines.getD i []

/-- `[k, k+1, ..., k+m-1]`: the index sequence of `enumerate(lines)`. -/
def idxList : Nat → Nat → List Nat
  | _, 0 => []
  | k, m + 1 => k :: idxList (k + 1) m

/-- `range(max(0, idx-1), min(len(lines), idx+2))`: the window indices
around a keyword line (src/billreader.py line 406). -/
def windowIdxs (n i : Nat) : List Nat :=
  (idxList 0 n).filter (fun j => decide (i - 1 ≤ j ∧ j ≤ i + 1))

/-- Candidates collected from the 3-line window around line `i`. -/
def windowCandidates (lines : List (List Char)) (i : Nat) : List Dec :=
  ((windowIdxs lines.length i).map (fun j => lineCandidates (lineAt lines j))).flatten

/-- The keyword-anchored first pass of `detect_amount`
(src/billreader.py lines 392-459): scan lines in order; at each keyword
line append its window's candidates to the running pool and return the
pool's maximum once the pool is non-empty. -/
def phase1Go (lines : List (List Char)) : List Dec → List Nat → Option Dec
  | _, [] => none
  | acc, i :: rest =>
    if keywordLine (lineAt lines i) then
      let acc2 := acc ++ windowCandidates lines i
      if acc2.isEmpty then phase1Go lines acc2 rest else listMax acc2
    else phase1Go lines acc rest

/-- `detect_amount` (src/billreader.py lines 359-537): keyword phase,
then the whole-document fallback maximum, then `None`. -/
def detect_amount (text : List Char) : Option Dec :=
  let lines := splitlines text
  match phase1Go lines [] (idxList 0 lines.length) with
  | some v => some v
  | none => listMax ((lines.map lineCandidates).flatten)

/-- The index of the first keyword line, as scanned by the first pass. -/
def firstKeywordIdx (lines : List (List Char)) : Option Nat :=
  (idxList 0 lines.length).find? (fun i => keywordLine (lineAt lines i))

/-- `BillInfo` (src/billreader.py lines 48-53). -/
structure BillInfo where
  company : String
  month : Nat
  year : Nat
  amount : Dec
  deriving DecidableEq, Repr

/-- `parse_bill` (src/billreader.py lines 540-556) after the external
PDF text extraction: assemble the record from the three resolvers with
the sentinel fallbacks month=1, year=1970 and amount=0.0 (the decimal
`Dec.mk 0 0`).  Every
function involved is total, so assembly never fails. -/
def parse_bill (text : List Char) : BillInfo :=
  let company := detect_company text
  let my := (detect_month_year text).getD (1, 1970)
  let amount := (detect_amount text).getD ⟨0, 0⟩
  { company := company, month := my.1, year := my.2, amount := amount }

/-- The character class of Excel-hostile characters replaced by
`normalize_sheet_name` (src/billreader.py line 567). -/
def excelBadChars : List Char :=
  [':', '\\', '/', '*', '?', '[', ']']

/-- `normalize_sheet_name` (src/billreader.py lines 565-572): replace
each hostile character by `_`, strip, default to `"Unknown"` when empty,
append `"_bill"`, truncate to 31 characters. -/
def normalize_sheet_name (company : List Char) : List Char :=
  let safe := stripL (company.map (fun c => if excelBadChars.contains c then '_' else c))
  let safe2 := if safe.isEmpty then "Unknown".data else safe
  (safe2 ++ "_bill".data).take 31

/-!
### Structural lemmas about the pattern combinators
-/

theorem head?_mem {α : Type} {l : List α} {a : α} (h : l.head? = some a) :
    a ∈ l := by
  cases l with
  | nil => simp at h
  | cons x xs =>
    simp only [List.head?_cons, Option.some.injEq] at h
    exact h ▸ List.mem_cons_self x xs

theorem mem_pBind {α β : Type} {p : P α} {f : α → P β} {s : List Char}
    {x : β × List Char} (h : x ∈ pBind p f s) :
    ∃ r, r ∈ p s ∧ x ∈ f r.1 r.2 := by
  unfold pBind at h
  rw [List.mem_flatten] at h
  obtain ⟨l, hl, hx⟩ := h
  rw [List.mem_map] at hl
  obtain ⟨r, hr, rfl⟩ := hl
  exact ⟨r, hr, hx⟩

theorem pPure_mem {α : Type} {a : α} {s : List Char} {x : α × List Char}
    (h : x ∈ pPure a s) : x = (a, s) := by
  simpa [pPure] using h

theorem pAlt_mem {α : Type} {ps : List (P α)} {s : List Char}
    {x : α × List Char} (h : x ∈ pAlt ps s) : ∃ p, p ∈ ps ∧ x ∈ p s := by
  unfold pAlt at h
  rw [List.mem_flatten] at h
  obtain ⟨l, hl, hx⟩ := h
  rw [List.mem_map] at hl
  obtain ⟨p, hp, rfl⟩ := hl
  exact ⟨p, hp, hx⟩

theorem searchP_mem {α : Type} (p : P α) :
    ∀ s a, searchP p s = some a → ∃ t r, (a, r) ∈ p t := by
  intro s
  induction s with
  | nil =>
    intro a h
    simp only [searchP] at h
    cases hh : (p []).head? with
    | none => rw [hh] at h; simp at h
    | some r =>
      rw [hh] at h
      simp only [Option.map_some', Option.some.injEq] at h
      exact ⟨[], r.2, by rw [← h] at *; exact (Prod.mk.eta (p := r)) ▸ head?_mem hh⟩
  | cons c rest ih =>
    intro a h
    simp only [searchP] at h
    cases hh : (p (c :: rest)).head? with
    | none => rw [hh] at h; exact ih a h
    | some r =>
      rw [hh] at h
      simp only [Option.some.injEq] at h
      exact ⟨c :: rest, r.2, by rw [← h] at *; exact (Prod.mk.eta (p := r)) ▸ head?_mem hh⟩

theorem searchB_mem {α : Type} (p : P α) :
    ∀ s prev a, searchB p prev s = some a → ∃ t r, (a, r) ∈ p t := by
  intro s
  induction s with
  | nil =>
    intro prev a h
    simp only [searchB] at h
    split at h
    · cases hh : (p []).head? with
      | none => rw [hh] at h; simp at h
      | some r =>
        rw [hh] at h
        simp only [Option.map_some', Option.some.injEq] at h
        exact ⟨[], r.2, by rw [← h] at *; exact (Prod.mk.eta (p := r)) ▸ head?_mem hh⟩
    · simp at h
  | cons c rest ih =>
    intro prev a h
    simp only [searchB] at h
    split at h
    · cases hh : (p (c :: rest)).head? with
      | none => rw [hh] at h; exact ih (some c) a h
      | some r =>
        rw [hh] at h
        simp only [Option.some.injEq] at h
        exact ⟨c :: rest, r.2, by rw [← h] at *; exact (Prod.mk.eta (p := r)) ▸ head?_mem hh⟩
    · exact ih (some c) a h

/-!
### Month values produced by the date patterns
-/

theorem pMonthLit_fst {b suf : List Char} {k : Nat} {s : List Char}
    {x : Nat × List Char} (h : x ∈ pMonthLit b suf k s) : x.1 = k := by
  obtain ⟨r1, _, h⟩ := mem_pBind h
  obtain ⟨r2, _, h⟩ := mem_pBind h
  rw [pPure_mem h]

theorem pMay_fst {s : List Char} {x : Nat × List Char} (h : x ∈ pMay s) :
    x.1 = 5 := by
  obtain ⟨r1, _, h⟩ := mem_pBind h
  rw [pPure_mem h]

theorem pSep_fst {s : List Char} {x : Nat × List Char} (h : x ∈ pSep s) :
    x.1 = 9 := by
  obtain ⟨r1, _, h⟩ := mem_pBind h
  obtain ⟨r2, _, h⟩ := mem_pBind h
  rw [pPure_mem h]

theorem monthP_fst {s : List Char} {x : Nat × List Char}
    (h : x ∈ monthP s) : 1 ≤ x.1 ∧ x.1 ≤ 12 := by
  obtain ⟨p, hp, hx⟩ := pAlt_mem (by simpa [monthP] using h)
  simp only [List.mem_cons, List.not_mem_nil, or_false] at hp
  rcases hp with rfl | rfl | rfl | rfl | rfl | rfl | rfl | rfl | rfl | rfl | rfl | rfl
  · have := pMonthLit_fst hx; omega
  · have := pMonthLit_fst hx; omega
  · have := pMonthLit_fst hx; omega
  · have := pMonthLit_fst hx; omega
  · have := pMay_fst hx; omega
  · have := pMonthLit_fst hx; omega
  · have := pMonthLit_fst hx; omega
  · have := pMonthLit_fst hx; omega
  · have := pSep_fst hx; omega
  · have := pMonthLit_fst hx; omega
  · have := pMonthLit_fst hx; omega
  · have := pMonthLit_fst hx; omega

theorem pDigit19_fst {s : List Char} {x : Nat × List Char}
    (h : x ∈ pDigit19 s) : 1 ≤ x.1 ∧ x.1 ≤ 9 := by
  cases s with
  | nil => simp [pDigit19] at h
  | cons c rest =>
    simp only [pDigit19] at h
    split at h
    · simp only [List.mem_singleton] at h
      subst h
      omega
    · simp at h

theorem pDigit02_fst {s : List Char} {x : Nat × List Char}
    (h : x ∈ pDigit02 s) : 10 ≤ x.1 ∧ x.1 ≤ 12 := by
  cases s with
  | nil => simp [pDigit02] at h
  | cons c rest =>
    simp only [pDigit02] at h
    split at h
    · simp only [List.mem_singleton] at h
      subst h
      omega
    · simp at h

theorem numMonthP_fst {s : List Char} {x : Nat × List Char}
    (h : x ∈ numMonthP s) : 1 ≤ x.1 ∧ x.1 ≤ 12 := by
  obtain ⟨p, hp, hx⟩ := pAlt_mem (by simpa [numMonthP] using h)
  simp only [List.mem_cons, List.not_mem_nil, or_false] at hp
  rcases hp with rfl | rfl | rfl
  · obtain ⟨r, _, hx⟩ := mem_pBind hx
    have := pDigit19_fst hx; omega
  · have := pDigit19_fst hx; omega
  · obtain ⟨r, _, hx⟩ := mem_pBind hx
    have := pDigit02_fst hx; omega

theorem monthDayYearP_fst {s : List Char} {x : (Nat × Nat) × List Char}
    (h : x ∈ monthDayYearP s) : 1 ≤ x.1.1 ∧ x.1.1 ≤ 12 := by
  obtain ⟨rm, hm, h⟩ := mem_pBind h
  obtain ⟨r2, _, h⟩ := mem_pBind h
  obtain ⟨r3, _, h⟩ := mem_pBind h
  obtain ⟨r4, _, h⟩ := mem_pBind h
  obtain ⟨r5, _, h⟩ := mem_pBind h
  obtain ⟨r6, _, h⟩ := mem_pBind h
  rw [pPure_mem h]
  simpa using monthP_fst hm

theorem dateRangeP_fst {s : List Char} {x : (Nat × Nat) × List Char}
    (h : x ∈ dateRangeP s) : 1 ≤ x.1.1 ∧ x.1.1 ≤ 12 := by
  obtain ⟨rmy, hmy, h⟩ := mem_pBind h
  obtain ⟨r2, _, h⟩ := mem_pBind h
  obtain ⟨r3, _, h⟩ := mem_pBind h
  obtain ⟨r4, _, h⟩ := mem_pBind h
  obtain ⟨r5, _, h⟩ := mem_pBind h
  rw [pPure_mem h]
  simpa using monthDayYearP_fst hmy

theorem billingPeriodP_fst {s : List Char} {x : (Nat × Nat) × List Char}
    (h : x ∈ billingPeriodP s) : 1 ≤ x.1.1 ∧ x.1.1 ≤ 12 := by
  obtain ⟨r1, _, h⟩ := mem_pBind h
  obtain ⟨r2, _, h⟩ := mem_pBind h
  exact dateRangeP_fst h

theorem monthYearP_fst {s : List Char} {x : (Nat × Nat) × List Char}
    (h : x ∈ monthYearP s) : 1 ≤ x.1.1 ∧ x.1.1 ≤ 12 := by
  obtain ⟨rm, hm, h⟩ := mem_pBind h
  obtain ⟨r2, _, h⟩ := mem_pBind h
  obtain ⟨r3, _, h⟩ := mem_pBind h
  rw [pPure_mem h]
  simpa using monthP_fst hm

theorem numericMYP_fst {s : List Char} {x : (Nat × Nat) × List Char}
    (h : x ∈ numericMYP s) : 1 ≤ x.1.1 ∧ x.1.1 ≤ 12 := by
  obtain ⟨rm, hm, h⟩ := mem_pBind h
  obtain ⟨r2, _, h⟩ := mem_pBind h
  obtain ⟨r3, _, h⟩ := mem_pBind h
  obtain ⟨r4, _, h⟩ := mem_pBind h
  rw [pPure_mem h]
  simpa using numMonthP_fst hm

/-- C2 (as stated): for every input text the assembled month lies in
1..12.  Counterexample: the labeled numeric date range pattern uses its
captured start month as-is with no range check, so the text
`"Billing period 13-01-2025 to 14-02-2025"` assembles month 13. -/
theorem C2_month_range_cex :
    (parse_bill "Billing period 13-01-2025 to 14-02-2025".data).month = 13 ∧
    ¬((parse_bill "Billing period 13-01-2025 to 14-02-2025".data).month ≤ 12) := by
  decide

/-- C2 (amended): the assembled month lies in 1..12 for every text on
which the labeled numeric date range pattern (cascade pattern 4, the
only one whose month is used as-is without name mapping or a 1..12
constraint) finds no match; every other source of the month — the three
name-mapped patterns, the numeric `M/YYYY` pattern whose month group is
constrained to 1..12, and the sentinel 1 — is range-safe. -/
theorem C2_month_range_amended (text : List Char)
    (h : searchP numericBillingP (lowerL text) = none) :
    1 ≤ (parse_bill text).month ∧ (parse_bill text).month ≤ 12 := by
  have hmy : ∀ my, detect_month_year text = some my → 1 ≤ my.1 ∧ my.1 ≤ 12 := by
    intro my hd
    simp only [detect_month_year] at hd
    cases h1 : searchP billingPeriodP (lowerL text) with
    | some r =>
      rw [h1] at hd
      simp only [Option.some.injEq] at hd
      subst hd
      obtain ⟨t, rest, hmem⟩ := searchP_mem _ _ _ h1
      exact billingPeriodP_fst hmem
    | none =>
      rw [h1] at hd
      cases h2 : searchP dateRangeP (lowerL text) with
      | some r =>
        rw [h2] at hd
        simp only [Option.some.injEq] at hd
        subst hd
        obtain ⟨t, rest, hmem⟩ := searchP_mem _ _ _ h2
        exact dateRangeP_fst hmem
      | none =>
        rw [h2, h] at hd
        cases h4 : searchB monthYearP none (lowerL text) with
        | some r =>
          rw [h4] at hd
          simp only [Option.some.injEq] at hd
          subst hd
          obtain ⟨t, rest, hmem⟩ := searchB_mem _ _ _ _ h4
          exact monthYearP_fst hmem
        | none =>
          rw [h4] at hd
          obtain ⟨t, rest, hmem⟩ := searchB_mem _ _ _ _ hd
          exact numericMYP_fst hmem
  simp only [parse_bill]
  cases hd : detect_month_year text with
  | none => simp [Option.getD]
  | some my =>
    have := hmy my hd
    simpa [Option.getD] using this

/-- C2 witness: on `"October 2025"` the numeric billing pattern finds no
match and the assembled month 10 indeed lies in 1..12. -/
theorem C2_month_range_witness :
    searchP numericBillingP (lowerL "October 2025".data) = none ∧
    (1 ≤ (parse_bill "October 2025".data).month ∧
      (parse_bill "October 2025".data).month ≤ 12) :=
  ⟨by decide, C2_month_range_amended "October 2025".data (by decide)⟩

/-- C5 (as stated): a month-name range with a dash separator and a
single trailing year should resolve to the start month and trailing
year.  Counterexample: this revision's cascade has no such pattern, so
`"August 28 - September 27, 2021"` does not resolve to (8, 2021). -/
theorem C5_dash_range_cex :
    detect_month_year "August 28 - September 27, 2021".data ≠ some (8, 2021) := by
  decide

/-- C5 (amended): the cascade of this revision has no dash-separator
month-name range pattern; `"August 28 - September 27, 2021"` matches no
pattern at all, period resolution signals absent, and the assembler
substitutes the sentinels month=1, year=1970. -/
theorem C5_dash_range_amended :
    detect_month_year "August 28 - September 27, 2021".data = none ∧
    (parse_bill "August 28 - September 27, 2021".data).month = 1 ∧
    (parse_bill "August 28 - September 27, 2021".data).year = 1970 := by
  decide

/-- C6 (as stated): a labeled "MonthName Year" should take priority over
an earlier bare "MonthName Year".  Counterexample: this revision's
cascade has no labeled MonthName-Year pattern, so
`"March 2020\nStatement date: April 2021"` does not resolve to the
labeled (4, 2021). -/
theorem C6_label_priority_cex :
    detect_month_year "March 2020\nStatement date: April 2021".data ≠ some (4, 2021) := by
  decide

/-- C6 (amended): this revision has no labeled MonthName-Year pattern;
any bare "MonthName Year" match is taken at its first occurrence in
document order, so the earlier bare `"March 2020"` wins over the later
labeled `"Statement date: April 2021"`. -/
theorem C6_first_bare_amended :
    detect_month_year "March 2020\nStatement date: April 2021".data = some (3, 2020) ∧
    (parse_bill "March 2020\nStatement date: April 2021".data).month = 3 ∧
    (parse_bill "March 2020\nStatement date: April 2021".data).year = 2020 := by
  decide

/-- C8: the end-to-end scenario.  Issuer classification, period
resolution, amount resolution and the sentinel fallbacks compose to the
record (company="ConEdison", month=7, year=2025, amount=123.45); the
decimal `Dec.mk 12345 2` denotes the rational 123.45. -/
theorem C8_end_to_end :
    parse_bill ("Consolidated Edison\nBilling period: Jul 14, 2025 to Aug 05, 2025\nTotal Amount Due $123.45\nCustomer service: 800-555-1234").data =
      { company := "ConEdison", month := 7, year := 2025, amount := ⟨12345, 2⟩ } ∧
    (Dec.mk 12345 2).toRat = 12345 / 100 := by
  constructor
  · decide
  · norm_num [Dec.toRat, Rat.mkRat_eq_div]

theorem dropWhile_subsetL {α : Type} (p : α → Bool) :
    ∀ l : List α, l.dropWhile p ⊆ l := by
  intro l
  induction l with
  | nil => simp [List.dropWhile]
  | cons x xs ih =>
    rw [List.dropWhile_cons]
    split
    · exact List.Subset.trans ih (List.subset_cons_self x xs)
    · exact fun a ha => ha

theorem stripL_subset (l : List Char) : stripL l ⊆ l := by
  intro a ha
  unfold stripL at ha
  rw [List.mem_reverse] at ha
  have ha2 := dropWhile_subsetL isSpacePy _ ha
  rw [List.mem_reverse] at ha2
  exact dropWhile_subsetL isSpacePy _ ha2

/-- C9: sheet-name normalization.  For every company string the result
is at most 31 characters and free of the Excel-hostile characters; the
concrete examples: `"Con Edison/NY"` normalizes to
`"Con Edison_NY_bill"`, and an empty or whitespace-only company
normalizes to `"Unknown_bill"`. -/
theorem C9_sheet_name :
    (∀ co : List Char, (normalize_sheet_name co).length ≤ 31) ∧
    (∀ co : List Char,
      (normalize_sheet_name co).all (fun c => !(excelBadChars.contains c)) = true) ∧
    normalize_sheet_name "Con Edison/NY".data = "Con Edison_NY_bill".data ∧
    normalize_sheet_name "".data = "Unknown_bill".data ∧
    normalize_sheet_name "   ".data = "Unknown_bill".data := by
  refine ⟨?_, ?_, by decide, by decide, by decide⟩
  · intro co
    simp only [normalize_sheet_name]
    rw [List.length_take]
    exact min_le_left _ _
  · intro co
    rw [List.all_eq_true]
    intro c hc
    simp only [normalize_sheet_name] at hc
    have hc' := List.take_subset _ _ hc
    rcases List.mem_append.mp hc' with h1 | h2
    · split at h1
      · exact (by decide : ∀ x ∈ "Unknown".data, (!excelBadChars.contains x) = true) c h1
      · have h3 := stripL_subset _ h1
        rw [List.mem_map] at h3
        obtain ⟨orig, _, rfl⟩ := h3
        split
        · decide
        · rename_i hno
          simpa using hno
    · exact (by decide : ∀ x ∈ "_bill".data, (!excelBadChars.contains x) = true) c h2

theorem find?_idxList_spec (p : Nat → Bool) :
    ∀ m k i, (idxList k m).find? p = some i →
      p i = true ∧ k ≤ i ∧ i < k + m ∧ ∀ j, k ≤ j → j < i → p j = false := by
  intro m
  induction m with
  | zero => intro k i h; simp [idxList, List.find?] at h
  | succ m ih =>
    intro k i h
    simp only [idxList, List.find?] at h
    cases hpk : p k
    · rw [hpk] at h
      obtain ⟨hpi, hki, hlt, hbefore⟩ := ih (k + 1) i h
      refine ⟨hpi, by omega, by omega, fun j hj1 hj2 => ?_⟩
      rcases Nat.eq_or_lt_of_le hj1 with rfl | hlt2
      · exact hpk
      · exact hbefore j (by omega) hj2
    · rw [hpk] at h
      simp only [Option.some.injEq] at h
      subst h
      exact ⟨hpk, le_rfl, by omega, fun j hj1 hj2 => by omega⟩

theorem phase1Go_hits (lines : List (List Char)) :
    ∀ m k i, k ≤ i → i < k + m →
    (∀ j, k ≤ j → j < i →
      keywordLine (lineAt lines j) = false ∨ windowCandidates lines j = []) →
    keywordLine (lineAt lines i) = true →
    windowCandidates lines i ≠ [] →
    phase1Go lines [] (idxList k m) = listMax (windowCandidates lines i) := by
  intro m
  induction m with
  | zero => intro k i h1 h2 _ _ _; omega
  | succ m ih =>
    intro k i h1 h2 hprev hkw hwin
    by_cases hk : k = i
    · subst hk
      simp only [idxList, phase1Go, hkw, if_true, List.nil_append]
      split
      · rename_i hemp
        exact absurd (by simpa using hemp) hwin
      · rfl
    · have hki : k < i := lt_of_le_of_ne h1 hk
      have hnext := ih (k + 1) i hki (by omega)
        (fun j hj1 hj2 => hprev j (by omega) hj2) hkw hwin
      rcases hprev k le_rfl hki with hf | he
      · simpa only [idxList, phase1Go, hf, Bool.false_eq_true, if_false] using hnext
      · cases hkk : keywordLine (lineAt lines k)
        · simpa only [idxList, phase1Go, hkk, Bool.false_eq_true, if_false] using hnext
        · simpa only [idxList, phase1Go, hkk, if_true, he, List.append_nil,
            List.nil_append, List.isEmpty_nil] using hnext

theorem phase1Go_misses (lines : List (List Char)) :
    ∀ m k,
    (∀ j, k ≤ j → j < k + m →
      keywordLine (lineAt lines j) = true → windowCandidates lines j = []) →
    phase1Go lines [] (idxList k m) = none := by
  intro m
  induction m with
  | zero => intro k _; simp [idxList, phase1Go]
  | succ m ih =>
    intro k hall
    have hnext := ih (k + 1) (fun j h1 h2 => hall j (by omega) (by omega))
    cases hkk : keywordLine (lineAt lines k)
    · simpa only [idxList, phase1Go, hkk, Bool.false_eq_true, if_false] using hnext
    · have he := hall k le_rfl (by omega) hkk
      simpa only [idxList, phase1Go, hkk, if_true, he, List.append_nil,
        List.nil_append, List.isEmpty_nil] using hnext

/-- C3 (as stated): the keyword set should contain nine phrases,
including "new balance".  Counterexample: the source's `keyword_pattern`
has only five phrases, so `"New Balance: $45.67"` anchors nothing and
the whole-document fallback returns the larger 999.00 (the decimal
`Dec.mk 99900 2`), not 45.67. -/
theorem C3_keyword_set_cex :
    detect_amount "New Balance: $45.67\nline\nline\nline\n$999.00".data = some ⟨99900, 2⟩ ∧
    (Dec.mk 99900 2).toRat = 999 ∧ (999 : ℚ) ≠ 4567 / 100 := by
  refine ⟨by decide, by decide, by norm_num⟩

/-- C3 (amended): the keyword set is the five phrases of the source
(total amount due, amount due, total due, current charges, amount due
now).  For every text whose first keyword-matching line has a 3-line
window yielding at least one candidate, the resolver returns the
maximum candidate of that window, taking precedence over amounts
elsewhere in the document. -/
theorem C3_keyword_window_amended (text : List Char) (i : Nat)
    (h1 : firstKeywordIdx (splitlines text) = some i)
    (h2 : windowCandidates (splitlines text) i ≠ []) :
    detect_amount text = listMax (windowCandidates (splitlines text) i) := by
  obtain ⟨hkw, hk0, hlt, hbefore⟩ := find?_idxList_spec _ _ _ _ h1
  have hp1 := phase1Go_hits (splitlines text) (splitlines text).length 0 i hk0 hlt
    (fun j hj1 hj2 => Or.inl (hbefore j hj1 hj2)) hkw h2
  simp only [detect_amount]
  rw [hp1]
  cases hwin : windowCandidates (splitlines text) i with
  | nil => exact absurd hwin h2
  | cons a tl => rfl

/-- C3 witness: `"Total Amount Due: $45.67\n\n$999.00"` has its first
keyword line at index 0 with a non-empty window, and the resolver
returns that window's maximum 45.67 even though 999.00 appears outside
the window. -/
theorem C3_keyword_window_witness :
    firstKeywordIdx (splitlines "Total Amount Due: $45.67\n\n$999.00".data) = some 0 ∧
    windowCandidates (splitlines "Total Amount Due: $45.67\n\n$999.00".data) 0 ≠ [] ∧
    detect_amount "Total Amount Due: $45.67\n\n$999.00".data =
      listMax (windowCandidates (splitlines "Total Amount Due: $45.67\n\n$999.00".data) 0) ∧
    detect_amount "Total Amount Due: $45.67\n\n$999.00".data = some ⟨4567, 2⟩ :=
  ⟨by decide, by decide,
    C3_keyword_window_amended "Total Amount Due: $45.67\n\n$999.00".data 0
      (by decide) (by decide),
    by decide⟩

/-- C4 (as stated): phase 1 should stop at the first keyword line, so a
first keyword line with an empty window should send the resolver
straight to the whole-document fallback.  Counterexample: on
`"Amount Due\n\n\n$999.00\n\nTotal Due\n$50.00"` the first keyword line
(index 0) has an empty window, yet the resolver keeps scanning, uses the
window of the later keyword line "Total Due" and returns 50.00 — while
the whole-document fallback the claim prescribes would return 999.00. -/
theorem C4_phase1_stop_cex :
    detect_amount "Amount Due\n\n\n$999.00\n\nTotal Due\n$50.00".data = some ⟨5000, 2⟩ ∧
    listMax (((splitlines "Amount Due\n\n\n$999.00\n\nTotal Due\n$50.00".data).map
      lineCandidates).flatten) = some ⟨99900, 2⟩ ∧
    (Dec.mk 5000 2) ≠ ⟨99900, 2⟩ := by
  decide

/-- C4 (amended): phase 1 does not stop at the first keyword line — it
scans the keyword lines in order and returns the maximum of the first
keyword window that yields at least one candidate; only when every
keyword line's window is empty does it fall back to the whole-document
maximum (absent if that is empty too). -/
theorem C4_phase1_scan_amended :
    (∀ text i,
      (∀ j, j < i → keywordLine (lineAt (splitlines text) j) = true →
        windowCandidates (splitlines text) j = []) →
      i < (splitlines text).length →
      keywordLine (lineAt (splitlines text) i) = true →
      windowCandidates (splitlines text) i ≠ [] →
      detect_amount text = listMax (windowCandidates (splitlines text) i)) ∧
    (∀ text,
      (∀ j, j < (splitlines text).length →
        keywordLine (lineAt (splitlines text) j) = true →
        windowCandidates (splitlines text) j = []) →
      detect_amount text = listMax (((splitlines text).map lineCandidates).flatten)) := by
  constructor
  · intro text i hbefore hilen hkw hwin
    have hp1 := phase1Go_hits (splitlines text) (splitlines text).length 0 i (by omega)
      (by omega)
      (fun j hj1 hj2 => by
        cases hkj : keywordLine (lineAt (splitlines text) j)
        · exact Or.inl rfl
        · exact Or.inr (hbefore j hj2 hkj))
      hkw hwin
    simp only [detect_amount]
    rw [hp1]
    cases hwin2 : windowCandidates (splitlines text) i with
    | nil => exact absurd hwin2 hwin
    | cons a tl => rfl
  · intro text hall
    have hp1 := phase1Go_misses (splitlines text) (splitlines text).length 0
      (fun j hj1 hj2 hkw => hall j (by omega) hkw)
    simp only [detect_amount]
    rw [hp1]

/-- C4 witness: on `"Amount Due\n\n\n$999.00\n\nTotal Due\n$50.00"` all
keyword lines before index 5 have empty windows, line 5 ("Total Due") is
a keyword line with a non-empty window, and the resolver returns that
window's maximum 50.00. -/
theorem C4_phase1_scan_witness :
    detect_amount "Amount Due\n\n\n$999.00\n\nTotal Due\n$50.00".data =
      listMax (windowCandidates
        (splitlines "Amount Due\n\n\n$999.00\n\nTotal Due\n$50.00".data) 5) ∧
    listMax (windowCandidates
      (splitlines "Amount Due\n\n\n$999.00\n\nTotal Due\n$50.00".data) 5) = some ⟨5000, 2⟩ :=
  ⟨C4_phase1_scan_amended.1 "Amount Due\n\n\n$999.00\n\nTotal Due\n$50.00".data 5
      (by decide) (by decide) (by decide) (by decide),
    by decide⟩

/-- C7: phone-number suppression.  The text `"Call 555-123-4567"` (whose
only numeric tokens are phone fragments without a decimal point) yields
absent; the keyword-anchored text `"Amount Due\nCall 412-4567.89"`,
whose only decimal-shaped token sits in a digit-hyphen-digit context,
also yields absent (exercising the rejection inside the keyword window
and in the fallback, which share `decimalCandidates`); and in general a
line all of whose decimal-pattern matches have a digit-hyphen-digit in
their 5-character context window contributes no bare-decimal candidate
in either phase. -/
theorem C7_phone_suppression :
    detect_amount "Call 555-123-4567".data = none ∧
    detect_amount "Amount Due\nCall 412-4567.89".data = none ∧
    (∀ line : List Char,
      (∀ se ∈ decFinditer line, hasDHD (contextOf line se) = true) →
      decimalCandidates line = []) := by
  refine ⟨by decide, by decide, ?_⟩
  intro line h
  unfold decimalCandidates
  rw [List.flatten_eq_nil_iff]
  intro piece hp
  rw [List.mem_map] at hp
  obtain ⟨se, hse, rfl⟩ := hp
  rw [h se hse]
  rfl

/-- C7 witness: the line `"Call 412-4567.89"` has exactly one
decimal-pattern match, its context contains `2-4`, and the line
contributes no candidate. -/
theorem C7_phone_suppression_witness :
    decimalCandidates "Call 412-4567.89".data = [] :=
  C7_phone_suppression.2.2 "Call 412-4567.89".data (by decide)

theorem knownIssuer_ne_empty {text : List Char} {n : String}
    (h : knownIssuer text = some n) : n ≠ "" := by
  simp only [knownIssuer] at h
  split_ifs at h <;>
    first
      | (simp only [Option.some.injEq] at h; subst h; decide)
      | simp at h

theorem collapseWs_cons_ne_nil (c : Char) (rest : List Char) :
    collapseWs (c :: rest) ≠ [] := by
  unfold collapseWs collapseAux
  split <;> simp

/-- C1: bill-record assembly is total (every function involved is a
total Lean function) and fully populates the record: an undetected
period yields month=1 and year=1970; an undetected amount yields 0.0;
an unmatched issuer table together with no non-blank line yields
company="Unknown"; and the company field is never the empty string. -/
theorem C1_assembler_sentinels :
    (∀ text, (parse_bill text).company ≠ "") ∧
    (∀ text, detect_month_year text = none →
      (parse_bill text).month = 1 ∧ (parse_bill text).year = 1970) ∧
    (∀ text, detect_amount text = none → (parse_bill text).amount = ⟨0, 0⟩) ∧
    (∀ text, knownIssuer text = none → nonBlankLines text = [] →
      (parse_bill text).company = "Unknown") := by
  refine ⟨?_, ?_, ?_, ?_⟩
  · intro text
    simp only [parse_bill, detect_company]
    cases hk : knownIssuer text with
    | some n => exact knownIssuer_ne_empty hk
    | none =>
      cases hl : nonBlankLines text with
      | nil => decide
      | cons first rest =>
        have hne : first ≠ [] := by
          have hmem : first ∈ nonBlankLines text := hl ▸ List.mem_cons_self _ _
          have hfil := (List.mem_filter.mp hmem).2
          intro hnil
          rw [hnil] at hfil
          simp at hfil
        cases first with
        | nil => exact absurd rfl hne
        | cons c cs =>
          intro heq
          have hdata : ((collapseWs (c :: cs)).take 50) = [] := by
            have := congrArg String.data heq
            simpa using this
          cases hcw : collapseWs (c :: cs) with
          | nil => exact collapseWs_cons_ne_nil c cs hcw
          | cons d ds =>
            rw [hcw] at hdata
            simp at hdata
  · intro text h
    simp [parse_bill, h]
  · intro text h
    simp [parse_bill, h]
  · intro text hk hl
    simp [parse_bill, detect_company, hk, hl]

/-- C1 witness: the empty text exercises every sentinel at once. -/
theorem C1_assembler_sentinels_witness :
    (parse_bill []).company ≠ "" ∧
    ((parse_bill []).month = 1 ∧ (parse_bill []).year = 1970) ∧
    (parse_bill []).amount = ⟨0, 0⟩ ∧
    (parse_bill []).company = "Unknown" :=
  ⟨C1_assembler_sentinels.1 [],
    C1_assembler_sentinels.2.1 [] (by decide),
    C1_assembler_sentinels.2.2.1 [] (by decide),
    C1_assembler_sentinels.2.2.2 [] (by decide) (by decide)⟩

theorem dotdd_inv {l : List Char} (h : dotdd l = true) :
    ∃ a b tl, l = '.' :: a :: b :: tl ∧ a.isDigit = true ∧ b.isDigit = true := by
  match l with
  | [] => simp [dotdd] at h
  | [c] => simp [dotdd] at h
  | [c, a] => simp [dotdd] at h
  | c :: a :: b :: tl =>
    simp only [dotdd, Bool.and_eq_true, decide_eq_true_eq] at h
    exact ⟨a, b, tl, by rw [h.1.1], h.1.2, h.2⟩

theorem decBack_spec (rest : List Char) :
    ∀ n k, decBack rest n = some k → k ≤ n ∧ dotdd (rest.drop k) = true := by
  intro n
  induction n with
  | zero =>
    intro k h
    simp only [decBack] at h
    split at h
    · rename_i hd
      simp only [Option.some.injEq] at h
      subst h
      exact ⟨le_rfl, by simpa using hd⟩
    · simp at h
  | succ n ih =>
    intro k h
    simp only [decBack] at h
    split at h
    · rename_i hd
      simp only [Option.some.injEq] at h
      subst h
      exact ⟨le_rfl, hd⟩
    · obtain ⟨h1, h2⟩ := ih k h
      exact ⟨by omega, h2⟩

theorem take_mem_of_le_takeWhile {p : Char → Bool} :
    ∀ (l : List Char) (k : Nat), k ≤ (l.takeWhile p).length →
      ∀ c ∈ l.take k, p c = true := by
  intro l
  induction l with
  | nil => intro k hk c hc; simp at hc
  | cons x xs ih =>
    intro k hk c hc
    cases hpx : p x
    · rw [List.takeWhile_cons, if_neg (by simp [hpx])] at hk
      simp only [List.length_nil, Nat.le_zero] at hk
      subst hk
      simp at hc
    · rw [List.takeWhile_cons, if_pos (by simp [hpx])] at hk
      cases k with
      | zero => simp at hc
      | succ k' =>
        rw [List.take_succ_cons] at hc
        rcases List.mem_cons.mp hc with rfl | hmem
        · exact hpx
        · exact ih k' (by simpa using hk) c hmem

/-- Every character of a `\d[\d,]*\.\d{2}` match is a digit, a comma or
a dot — in particular no minus sign, so the cleaning rule's tolerance of
a leading minus is never exercised on captured tokens. -/
theorem decMatchLen_chars :
    ∀ t len, decMatchLen t = some len →
      ∀ c ∈ t.take len, (c.isDigit || c = ',' || c = '.') = true := by
  intro t len h c hc
  cases t with
  | nil => simp [decMatchLen] at h
  | cons c0 rest =>
    simp only [decMatchLen] at h
    split at h
    · rename_i hdig
      cases hb : decBack rest (rest.takeWhile decClass).length with
      | none => rw [hb] at h; simp at h
      | some k =>
        rw [hb] at h
        simp only [Option.some.injEq] at h
        subst h
        obtain ⟨hk, hdd⟩ := decBack_spec rest _ _ hb
        rw [show (1 + k + 3) = (k + 3) + 1 by omega, List.take_succ_cons] at hc
        rcases List.mem_cons.mp hc with rfl | hmem
        · simp [hdig]
        · rw [List.take_add] at hmem
          rcases List.mem_append.mp hmem with hm1 | hm2
          · have hcl := take_mem_of_le_takeWhile rest k hk c hm1
            simp only [decClass, Bool.or_eq_true] at hcl
            rcases hcl with h1 | h2
            · simp [h1]
            · simp [h2]
          · obtain ⟨a, b, tl, heq, ha, hb2⟩ := dotdd_inv hdd
            rw [heq] at hm2
            simp only [List.take_succ_cons, List.take_zero] at hm2
            rcases List.mem_cons.mp hm2 with rfl | hm3
            · simp
            · rcases List.mem_cons.mp hm3 with rfl | hm4
              · simp [ha]
              · rcases List.mem_cons.mp hm4 with rfl | hm5
                · simp [hb2]
                · simp at hm5
    · simp at h

theorem parseUnsignedDec_nonneg {r : List Char} {d : Dec}
    (h : parseUnsignedDec r = some d) : 0 ≤ d.num := by
  simp only [parseUnsignedDec] at h
  split at h
  · split at h
    · simp at h
    · simp only [Option.some.injEq] at h
      subst h
      exact Int.natCast_nonneg _
  · split at h
    · split at h
      · split at h
        · simp at h
        · simp only [Option.some.injEq] at h
          subst h
          exact Int.natCast_nonneg _
      · simp at h
    · simp at h

theorem clean_amount_str_nonneg {l : List Char} {d : Dec}
    (hdash : '-' ∉ l) (h : clean_amount_str l = some d) : 0 ≤ d.num := by
  simp only [clean_amount_str] at h
  split at h
  · simp at h
  · have hnd : ('-' : Char) ∉ l.filter (fun c => c.isDigit || c = '.' || c = '-') :=
      fun hmem => hdash (List.mem_of_mem_filter hmem)
    simp only [parsePyFloat] at h
    split at h
    · rename_i hhead
      exact absurd (head?_mem hhead) hnd
    · exact parseUnsignedDec_nonneg h

theorem decIterAux_spec (l : List Char) :
    ∀ fuel i se, se ∈ decIterAux l fuel i →
      decMatchLen (l.drop se.1) = some (se.2 - se.1) := by
  intro fuel
  induction fuel with
  | zero => intro i se h; simp [decIterAux] at h
  | succ fuel ih =>
    intro i se h
    simp only [decIterAux] at h
    split at h
    · simp at h
    · cases hm : decMatchLen (l.drop i) with
      | none => rw [hm] at h; exact ih _ _ h
      | some len =>
        rw [hm] at h
        rcases List.mem_cons.mp h with rfl | hmem
        · simpa using hm
        · exact ih _ _ hmem

theorem curIterAux_spec (l : List Char) :
    ∀ fuel i se, se ∈ curIterAux l fuel i →
      decMatchLen (l.drop se.1) = some (se.2 - se.1) := by
  intro fuel
  induction fuel with
  | zero => intro i se h; simp [curIterAux] at h
  | succ fuel ih =>
    intro i se h
    simp only [curIterAux] at h
    split at h
    · simp at h
    · cases hm : curMatchAt (l.drop i) with
      | none => rw [hm] at h; exact ih _ _ h
      | some ol =>
        rw [hm] at h
        rcases List.mem_cons.mp h with rfl | hmem
        · -- invert curMatchAt
          cases hd : l.drop i with
          | nil => rw [hd] at hm; simp [curMatchAt] at hm
          | cons c rest =>
            rw [hd] at hm
            simp only [curMatchAt] at hm
            split at hm
            · rename_i hdol
              cases hdm : decMatchLen (rest.drop (rest.takeWhile isSpacePy).length) with
              | none => rw [hdm] at hm; simp at hm
              | some len =>
                rw [hdm] at hm
                simp only [Option.some.injEq] at hm
                subst hm
                have hdrop : l.drop (i + (1 + (rest.takeWhile isSpacePy).length)) =
                    rest.drop (rest.takeWhile isSpacePy).length := by
                  rw [show i + (1 + (rest.takeWhile isSpacePy).length) =
                    i + ((rest.takeWhile isSpacePy).length + 1) by omega]
                  rw [← List.drop_drop, hd]
                  rw [List.drop_succ_cons]
                simp only
                rw [show i + (1 + (rest.takeWhile isSpacePy).length, len).1 +
                  (1 + (rest.takeWhile isSpacePy).length, len).2 -
                  (i + (1 + (rest.takeWhile isSpacePy).length, len).1) = len by omega]
                rw [show i + (1 + (rest.takeWhile isSpacePy).length, len).1 =
                  i + (1 + (rest.takeWhile isSpacePy).length) by rfl]
                rw [hdrop]
                exact hdm
            · simp at hm
        · exact ih _ _ hmem

theorem toRat_nonneg {d : Dec} (h : 0 ≤ d.num) : 0 ≤ d.toRat := by
  unfold Dec.toRat
  rw [Rat.mkRat_eq_div]
  apply div_nonneg
  · exact_mod_cast h
  · positivity

theorem dLt_toRat {a b : Dec} (h : dLt a b = true) : a.toRat < b.toRat := by
  have h' := of_decide_eq_true h
  unfold Dec.toRat
  rw [Rat.mkRat_eq_div, Rat.mkRat_eq_div]
  rw [div_lt_div_iff (by positivity) (by positivity)]
  push_cast
  exact_mod_cast h'

theorem dLe_toRat {a b : Dec} (h : dLe a b = true) : a.toRat ≤ b.toRat := by
  have h' := of_decide_eq_true h
  unfold Dec.toRat
  rw [Rat.mkRat_eq_div, Rat.mkRat_eq_div]
  rw [div_le_div_iff (by positivity) (by positivity)]
  push_cast
  exact_mod_cast h'

theorem toRat_100000 : (Dec.mk 100000 0).toRat = 100000 := by
  unfold Dec.toRat
  rw [Rat.mkRat_eq_div]
  norm_num

/-- The decimal-shaped token of a span produced by either money
pattern contains no minus sign. -/
theorem sliceTok_no_dash {l : List Char} {se : Nat × Nat}
    (h : decMatchLen (l.drop se.1) = some (se.2 - se.1)) :
    ('-' : Char) ∉ sliceTok l se := by
  intro hmem
  unfold sliceTok at hmem
  have := decMatchLen_chars _ _ h '-' hmem
  simp at this

theorem currencyCandidates_bounds {l : List Char} {q : Dec}
    (h : q ∈ currencyCandidates l) : 0 ≤ q.toRat ∧ q.toRat < 100000 := by
  unfold currencyCandidates at h
  rw [List.mem_flatten] at h
  obtain ⟨piece, hp, hq⟩ := h
  rw [List.mem_map] at hp
  obtain ⟨se, hse, rfl⟩ := hp
  cases hcl : clean_amount_str (sliceTok l se) with
  | none => rw [hcl] at hq; simp [keepCurrency] at hq
  | some amt =>
    rw [hcl] at hq
    simp only [keepCurrency] at hq
    split at hq
    · rename_i hlt
      simp only [List.mem_singleton] at hq
      subst hq
      have hnd := sliceTok_no_dash (curIterAux_spec l _ _ _ hse)
      constructor
      · exact toRat_nonneg (clean_amount_str_nonneg hnd hcl)
      · have := dLt_toRat hlt
        rwa [toRat_100000] at this
    · simp at hq

theorem decimalCandidates_bounds {l : List Char} {q : Dec}
    (h : q ∈ decimalCandidates l) : 0 ≤ q.toRat ∧ q.toRat < 100000 := by
  unfold decimalCandidates at h
  rw [List.mem_flatten] at h
  obtain ⟨piece, hp, hq⟩ := h
  rw [List.mem_map] at hp
  obtain ⟨se, hse, rfl⟩ := hp
  split at hq
  · simp at hq
  · cases hcl : clean_amount_str (sliceTok l se) with
    | none => rw [hcl] at hq; simp [keepDecimal] at hq
    | some amt =>
      rw [hcl] at hq
      simp only [keepDecimal] at hq
      split at hq
      · rename_i hrange
        rw [Bool.and_eq_true] at hrange
        simp only [List.mem_singleton] at hq
        subst hq
        constructor
        · have h1 := dLe_toRat hrange.1
          have h2 : (Dec.mk 1 2).toRat = mkRat 1 100 := by rfl
          have h3 : (0 : ℚ) ≤ (Dec.mk 1 2).toRat := by
            rw [h2, Rat.mkRat_eq_div]
            norm_num
          exact le_trans h3 h1
        · have := dLt_toRat hrange.2
          rwa [toRat_100000] at this
      · simp at hq

theorem lineCandidates_bounds {l : List Char} {q : Dec}
    (h : q ∈ lineCandidates l) : 0 ≤ q.toRat ∧ q.toRat < 100000 := by
  rcases List.mem_append.mp h with h1 | h2
  · exact currencyCandidates_bounds h1
  · exact decimalCandidates_bounds h2

theorem windowCandidates_bounds {lines : List (List Char)} {i : Nat} {q : Dec}
    (h : q ∈ windowCandidates lines i) : 0 ≤ q.toRat ∧ q.toRat < 100000 := by
  unfold windowCandidates at h
  rw [List.mem_flatten] at h
  obtain ⟨piece, hp, hq⟩ := h
  rw [List.mem_map] at hp
  obtain ⟨j, _, rfl⟩ := hp
  exact lineCandidates_bounds hq

theorem maxD_choice (a b : Dec) : maxD a b = a ∨ maxD a b = b := by
  unfold maxD
  split
  · exact Or.inr rfl
  · exact Or.inl rfl

theorem listMax_mem {l : List Dec} {a : Dec} (h : listMax l = some a) : a ∈ l := by
  cases l with
  | nil => simp [listMax] at h
  | cons x xs =>
    simp only [listMax, Option.some.injEq] at h
    subst h
    have haux : ∀ (ys : List Dec) (y : Dec), ys.foldl maxD y = y ∨ ys.foldl maxD y ∈ ys := by
      intro ys
      induction ys with
      | nil => intro y; exact Or.inl rfl
      | cons z zs ih =>
        intro y
        rw [List.foldl_cons]
        rcases ih (maxD y z) with h1 | h1
        · rcases maxD_choice y z with h2 | h2
          · exact Or.inl (by rw [h1, h2])
          · exact Or.inr (by rw [h1, h2]; exact List.mem_cons_self _ _)
        · exact Or.inr (List.mem_cons_of_mem _ h1)
    rcases haux xs x with h1 | h1
    · rw [h1]; exact List.mem_cons_self _ _
    · exact List.mem_cons_of_mem _ h1

theorem phase1Go_bounds (lines : List (List Char)) :
    ∀ (L : List Nat) (acc : List Dec) (v : Dec),
      (∀ q ∈ acc, 0 ≤ q.toRat ∧ q.toRat < 100000) →
      phase1Go lines acc L = some v → 0 ≤ v.toRat ∧ v.toRat < 100000 := by
  intro L
  induction L with
  | nil => intro acc v _ h; simp [phase1Go] at h
  | cons i rest ih =>
    intro acc v hacc h
    simp only [phase1Go] at h
    split at h
    · split at h
      · refine ih _ v (fun q hq => ?_) h
        rcases List.mem_append.mp hq with h1 | h2
        · exact hacc q h1
        · exact windowCandidates_bounds h2
      · have hv := listMax_mem h
        rcases List.mem_append.mp hv with h1 | h2
        · exact hacc v h1
        · exact windowCandidates_bounds h2
    · exact ih _ v hacc h

/-- C10: whenever amount resolution returns a value it is non-negative
and strictly below 100000: captured tokens consist only of digits,
commas and a dot (no minus sign can be captured), currency candidates
are guarded by `< 100000`, and bare-decimal candidates by
`[0.01, 100000)`; the returned value is the maximum of such
candidates. -/
theorem C10_amount_bounds (text : List Char) (v : Dec)
    (h : detect_amount text = some v) : 0 ≤ v.toRat ∧ v.toRat < 100000 := by
  simp only [detect_amount] at h
  cases hp : phase1Go (splitlines text) [] (idxList 0 (splitlines text).length) with
  | some w =>
    rw [hp] at h
    simp only [Option.some.injEq] at h
    subst h
    exact phase1Go_bounds _ _ _ _ (by simp) hp
  | none =>
    rw [hp] at h
    have hv := listMax_mem h
    rw [List.mem_flatten] at hv
    obtain ⟨piece, hp2, hq⟩ := hv
    rw [List.mem_map] at hp2
    obtain ⟨line, _, rfl⟩ := hp2
    exact lineCandidates_bounds hq

/-- C10 witness: `"$5.00"` resolves to the decimal 5.00, which is
non-negative and below 100000. -/
theorem C10_amount_bounds_witness :
    detect_amount "$5.00".data = some ⟨500, 2⟩ ∧
    (0 ≤ (Dec.mk 500 2).toRat ∧ (Dec.mk 500 2).toRat < 100000) :=
  ⟨by decide, C10_amount_bounds "$5.00".data ⟨500, 2⟩ (by decide)⟩
